import Mathlib

/-!
Shallow embedding of the Source-Stitcher file discovery and filtering engine
(`src/source_stitcher/core/file_walker.py`, `src/source_stitcher/file_utils.py`,
`src/source_stitcher/core/file_reader.py`, `src/source_stitcher/config.py`).

Modelling conventions:
* A filesystem is a finite tree (`FSNode`); regular files carry their stat
  data (device, inode, size), raw bytes (for the binary sniff), text lines
  (what reading the file as text yields, used for ignore-pattern files) and
  an abstract per-encoding decode outcome (for the multi-encoding reader).
* Absolute paths are component lists; `Path.relative_to` and `Path.name` are
  embedded with CPython `pathlib` semantics.
* Compiled `pathspec.PathSpec` matchers are opaque predicates
  `String → Bool`; the gitwildmatch compiler is an explicit parameter
  `compile : List String → String → Bool` of every function that builds one.
* Python `list.sort(key=...)` is a stable sort; it is embedded as a stable
  insertion sort, which computes the same list as any stable sort.
* `str.lower` is embedded for the ASCII range; string comparison is
  code-point lexicographic, as in Python.
* The recursive directory walk is embedded structurally with a fuel
  parameter set to the tree depth, which is always sufficient, so the
  zero-fuel branch is unreachable on the arguments the walker passes.
-/

namespace Stitcher

/-- ASCII lower-casing of one character (embedding of `str.lower`). -/
def lowerChar (c : Char) : Char :=
  if 65 ≤ c.toNat && c.toNat ≤ 90 then Char.ofNat (c.toNat + 32) else c

/-- ASCII lower-casing of a string (embedding of `str.lower`). -/
def pyLower (s : String) : String := String.mk (s.data.map lowerChar)

/-- Code-point lexicographic comparison of character lists. -/
def charListLE : List Char → List Char → Bool
  | [], _ => true
  | _ :: _, [] => false
  | a :: as, b :: bs =>
    if a.toNat < b.toNat then true
    else if b.toNat < a.toNat then false
    else charListLE as bs

/-- Code-point lexicographic string comparison (embedding of `str.__le__`). -/
def strLE (a b : String) : Bool := charListLE a.data b.data

/-- Comparison of two values by a string key (for `list.sort(key=...)`). -/
def keyLE {α : Type} (K : α → String) (a b : α) : Bool := strLE (K a) (K b)

/-- Insertion into a sorted list, keeping the new element leftmost among
key-equal elements (matching a stable sort). -/
def insertLE {α : Type} (le : α → α → Bool) (a : α) : List α → List α
  | [] => [a]
  | b :: l => if le a b then a :: b :: l else b :: insertLE le a l

/-- Stable sort; extensionally equal to Python's Timsort `list.sort`. -/
def stableSortBy {α : Type} (le : α → α → Bool) : List α → List α
  | [] => []
  | a :: l => insertLE le a (stableSortBy le l)

/-- Case-insensitive stable sort of names, embedding
`names.sort(key=str.lower)`. -/
def sortIC (l : List String) : List String := stableSortBy (keyLE pyLower) l

/-- Embedding of an absolute `pathlib.Path` as its component list. -/
structure AbsPath where
  components : List String
deriving DecidableEq, Repr

/-- Final path component, embedding `Path.name` (empty for the root). -/
def AbsPath.name (p : AbsPath) : String := p.components.getLast?.getD ""

/-- Embedding of `Path.relative_to`: the component list of `p` relative to
`base` when `base` is an ancestor-or-self of `p`, otherwise `none`
(the `ValueError` case). The empty list stands for `Path(".")`. -/
def relativeTo (p base : AbsPath) : Option (List String) :=
  if base.components.isPrefixOf p.components then
    some (p.components.drop base.components.length)
  else none

/-- Embedding of `str(relative_path)`: components joined by `/`, and `"."`
for the empty relative path, as `pathlib` prints it. -/
def relStr : List String → String
  | [] => "."
  | [c] => c
  | c :: rest => c ++ "/" ++ relStr rest

/-- Child path `p / n`. -/
def AbsPath.child (p : AbsPath) (n : String) : AbsPath := ⟨p.components ++ [n]⟩

/-- Joining an absolute path with a relative component list, embedding
`base / rel` (note `base / Path(".")` is `base`). -/
def AbsPath.joinRel (p : AbsPath) (r : List String) : AbsPath := ⟨p.components ++ r⟩

/-- Embedding of `PurePath.suffix` (CPython: the part of `name` from its
last dot, when that dot is neither the first nor the last character). -/
def pySuffix (name : String) : String :=
  let cs := name.data
  match lastDotIdx cs with
  | some i => if 0 < i && i < cs.length - 1 then String.mk (cs.drop i) else ""
  | none => ""
where
  /-- Index of the last occurrence of `'.'`. -/
  lastDotIdx : List Char → Option Nat
    | [] => none
    | c :: rest =>
      match lastDotIdx rest with
      | some i => some (i + 1)
      | none => if c = '.' then some 0 else none

/-- Embedding of `name.startswith(".")`. -/
def startsWithDot (s : String) : Bool :=
  match s.data with
  | c :: _ => c = '.'
  | [] => false

/-- Outcome of reading a file's full content with one particular text
encoding: a decoded string, a `UnicodeDecodeError`, or an
`OSError`/`PermissionError`/`FileNotFoundError`. -/
inductive DecodeResult where
  | ok (content : String)
  | decodeError
  | osError

/-- Observable data of one regular file: stat fields, raw bytes (for the
binary sniff), whether reading raises, the text lines the file holds
(what `readlines()` yields, used for ignore-pattern files), and the
per-encoding decode outcome used by the multi-encoding reader. -/
structure FileData where
  dev : Nat
  ino : Nat
  size : Nat
  bytes : List Nat
  readError : Bool
  lines : List String
  decode : String → DecodeResult

/-- A filesystem node: a regular file, a directory with an ordered entry
listing (the `os.scandir` order), or a special node (symlink, FIFO,
device...) for which `S_ISREG` and `S_ISDIR` are both false. -/
inductive FSNode where
  | file (data : FileData)
  | dir (entries : List (String × FSNode))
  | special

/-- Directory entry lookup by name. -/
def lookupEntry (n : String) (entries : List (String × FSNode)) : Option FSNode :=
  (entries.find? (fun e => e.1 = n)).map (fun e => e.2)

/-- Resolving a component list from a node (embedding path resolution /
`os.stat` reachability). -/
def resolve (node : FSNode) : List String → Option FSNode
  | [] => some node
  | c :: rest =>
    match node with
    | .dir entries =>
      match lookupEntry c entries with
      | some child => resolve child rest
      | none => none
    | _ => none

/-- Resolving an absolute path against the filesystem root. -/
def resolveAt (fs : FSNode) (p : AbsPath) : Option FSNode := resolve fs p.components

/-- True exactly on directory nodes (`S_ISDIR`). -/
def entryIsDir : FSNode → Bool
  | .dir _ => true
  | _ => false

mutual

/-- Height of a filesystem node, used as walk fuel. -/
def depthN : FSNode → Nat
  | .file _ => 0
  | .special => 0
  | .dir entries => depthE entries + 1

/-- Height of a directory listing. -/
def depthE : List (String × FSNode) → Nat
  | [] => 0
  | e :: rest => max (depthN e.2) (depthE rest)

end

/-! The `file_utils.py` component. -/

/-- Embedding of `is_binary_file`: read up to 1024 bytes and look for a NUL
byte; any read error counts as binary. -/
def is_binary_file (d : FileData) : Bool :=
  if d.readError then true
  else (d.bytes.take 1024).contains 0

/-- The fixed conventional text filenames of `is_likely_text_file`. -/
def textFilenames : List String :=
  ["readme", "license", "licence", "changelog", "changes", "authors",
   "contributors", "copying", "install", "news", "todo", "version",
   "dockerfile", "makefile", "rakefile", "gemfile", "pipfile", "procfile",
   "vagrantfile", "jenkinsfile", "cname", "notice", "manifest", "copyright"]

/-- The fixed dotfile blocklist of `is_likely_text_file`. -/
def skipDotfiles : List String :=
  [".git", ".ds_store", ".pyc", ".pyo", ".pyd", ".so", ".dylib", ".dll"]

/-- The fixed plausible-text extensions of `is_likely_text_file`. -/
def possibleTextExtensions : List String :=
  [".ini", ".cfg", ".conf", ".config", ".properties", ".env", ".envrc",
   ".ignore", ".keep", ".gitkeep", ".npmignore", ".dockerignore",
   ".editorconfig", ".flake8", ".pylintrc", ".prettierrc", ".eslintrc",
   ".stylelintrc", ".babelrc", ".npmrc", ".yarnrc", ".nvmrc",
   ".ruby-version", ".python-version", ".node-version", ".terraform",
   ".tf", ".tfvars", ".ansible", ".playbook", ".vault", ".j2", ".jinja",
   ".jinja2", ".template", ".tmpl", ".tpl", ".mustache", ".hbs",
   ".handlebars"]

/-- Embedding of `is_likely_text_file`: name-pattern heuristics, each
falling back to the binary sniff. The dotfile branch falls through to the
suffix branches when the name is on the blocklist, exactly as in the
source. -/
def is_likely_text_file (name : String) (d : FileData) : Bool :=
  if textFilenames.contains (pyLower name) then ! is_binary_file d
  else if startsWithDot name && name.data.length > 1
          && ! skipDotfiles.contains (pyLower name) then ! is_binary_file d
  else if pySuffix name = "" then ! is_binary_file d
  else if possibleTextExtensions.contains (pyLower (pySuffix name)) then ! is_binary_file d
  else false

/-- Embedding of `matches_file_type`: selected filename, then selected
extension, then the catch-all branch guarded by the complete category
universe and the text-likelihood heuristic. -/
def matches_file_type (name : String) (d : FileData)
    (selected_exts selected_names all_exts all_names : List String)
    (handle_other : Bool) : Bool :=
  let file_ext := pyLower (pySuffix name)
  let file_name := pyLower name
  if selected_names.contains file_name then true
  else if selected_exts.contains file_ext then true
  else if handle_other && ! all_names.contains file_name
          && ! all_exts.contains file_ext then
    is_likely_text_file name d
  else false

/-- Lines contributed by one candidate ignore file in a directory listing:
present regular files only; unreadable files are skipped with a warning. -/
def readIgnoreFileLines (entries : List (String × FSNode)) (nm : String) : List String :=
  match lookupEntry nm entries with
  | some (.file d) => if d.readError then [] else d.lines
  | _ => []

/-- Lines contributed by `.git/info/exclude` when `.git` is a directory
holding a regular `info/exclude` file. -/
def gitInfoExcludeLines (entries : List (String × FSNode)) : List String :=
  match lookupEntry ".git" entries with
  | some (.dir gitEntries) =>
    match lookupEntry "info" gitEntries with
    | some (.dir infoEntries) => readIgnoreFileLines infoEntries "exclude"
    | _ => []
  | _ => []

/-- Pattern lines collected by `load_ignore_patterns`: the enabled ignore
files in order, then (unconditionally, as in the source) the
`.git/info/exclude` lines. -/
def collect_ignore_lines (entries : List (String × FSNode))
    (use_gitignore use_npmignore use_dockerignore : Bool) : List String :=
  (if use_gitignore then readIgnoreFileLines entries ".gitignore" else [])
    ++ (if use_npmignore then readIgnoreFileLines entries ".npmignore" else [])
    ++ (if use_dockerignore then readIgnoreFileLines entries ".dockerignore" else [])
    ++ gitInfoExcludeLines entries

/-- Embedding of `load_ignore_patterns`: compile the collected lines, or
`None` when no line was collected. -/
def load_ignore_patterns (compile : List String → String → Bool)
    (entries : List (String × FSNode))
    (use_gitignore use_npmignore use_dockerignore : Bool) : Option (String → Bool) :=
  let patterns := collect_ignore_lines entries use_gitignore use_npmignore use_dockerignore
  if patterns.isEmpty then none else some (compile patterns)

/-- A concrete stand-in gitwildmatch compiler used on concrete inputs: a
path string matches when it is literally one of the pattern lines. -/
def literalCompile : List String → String → Bool :=
  fun patterns s => patterns.contains s

/-! The configuration dataclasses (`config.py`), restricted to the fields
the discovery engine reads. -/

/-- Embedding of `FilterSettings`. -/
structure FilterSettings where
  selected_extensions : List String
  selected_filenames : List String
  all_known_extensions : List String
  all_known_filenames : List String
  handle_other_text_files : Bool
  ignore_spec : Option (String → Bool)
  global_ignore_spec : Option (String → Bool)
  use_gitignore : Bool
  use_npmignore : Bool
  use_dockerignore : Bool

/-- Embedding of `GenerationOptions` (the fields the walker reads). -/
structure GenerationOptions where
  selected_paths : List AbsPath
  base_directory : AbsPath

/-- Embedding of `WorkerConfig` (the fields the walker reads). -/
structure WorkerConfig where
  filter_settings : FilterSettings
  generation_options : GenerationOptions

/-! The `FileReader` component (`core/file_reader.py`). -/

/-- Default encoding preference order of `FileReader.__init__`. -/
def defaultEncodings : List String :=
  ["utf-8", "utf-8-sig", "latin-1", "iso-8859-1", "cp1252", "ascii"]

/-- The encoding loop of `FileReader.get_file_content`: successive
encodings are tried; a successful decode returns the content unless it is
empty or all-whitespace; a `UnicodeDecodeError` moves to the next
encoding; an OS-level error returns `None` at once. (The `MemoryError`
chunked fallback re-reads with the same encoding and concatenates, so it
yields the same outcome and is absorbed into `decode`.) -/
def readWithEncodings (d : FileData) : List String → Option String
  | [] => none
  | enc :: rest =>
    match d.decode enc with
    | .ok content => if content.trim = "" then none else some content
    | .decodeError => readWithEncodings d rest
    | .osError => none

/-- Embedding of `FileReader.get_file_content`: binary files are rejected
first, then the encodings are tried in order. -/
def get_file_content (encodings : List String) (d : FileData) : Option String :=
  if is_binary_file d then none
  else readWithEncodings d encodings

/-- Modelled from the spec: the result of `getContent` as §4.4 and claim C9
word it — the first encoding whose decode raises no error is selected; an
`ok` outcome is returned unless blank, an OS error yields absent, and so
does exhausting the list; binary files are absent up front. -/
def getFileContentSpec (encodings : List String) (d : FileData) : Option String :=
  if is_binary_file d then none
  else
    match encodings.find? (fun enc =>
        match d.decode enc with
        | .decodeError => false
        | _ => true) with
    | some enc =>
      match d.decode enc with
      | .ok content => if content.trim = "" then none else some content
      | _ => none
    | none => none

/-! The `ProjectFileWalker` component (`core/file_walker.py`). -/

/-- Matching against an optional compiled spec; an absent spec never
matches (the `if spec and spec.match_file(...)` idiom). -/
def matchOpt (spec : Option (String → Bool)) (s : String) : Bool :=
  match spec with
  | some m => m s
  | none => false

/-- The local-ignore check of `_should_include_file` (lines 363-373): only
performed when both a local spec and `root_relative_to_current` were
passed; the tested string is the file path relative to
`base_directory / root_relative_to_current`, and a `ValueError` there
silently skips the check. -/
def local_ignore_rejects (base filePath : AbsPath)
    (localSpec : Option (String → Bool)) (rrcOpt : Option (List String)) : Bool :=
  match localSpec, rrcOpt with
  | some spec, some rrc =>
    match relativeTo filePath (base.joinRel rrc) with
    | some r => spec (relStr r)
    | none => false
  | _, _ => false

/-- Embedding of `ProjectFileWalker._should_include_file`: the sequence of
early-return rejection tests on one candidate file. -/
def should_include_file (fset : FilterSettings) (base filePath : AbsPath)
    (node : FSNode) (seen : List (Nat × Nat))
    (localSpec : Option (String → Bool)) (rrcOpt : Option (List String)) : Bool :=
  match node with
  | .file d =>
    if d.size = 0 then false
    else if startsWithDot filePath.name then false
    else if seen.contains (d.dev, d.ino) then false
    else
      match relativeTo filePath base with
      | none => false
      | some rel =>
        let relativePathStr := relStr rel
        if matchOpt fset.ignore_spec relativePathStr then false
        else if local_ignore_rejects base filePath localSpec rrcOpt then false
        else if matchOpt fset.global_ignore_spec relativePathStr then false
        else if ! matches_file_type filePath.name d
            fset.selected_extensions fset.selected_filenames
            fset.all_known_extensions fset.all_known_filenames
            fset.handle_other_text_files then false
        else if is_binary_file d then false
        else true
  | _ => false

/-- Embedding of `_is_directory_ignored` for a top-level selected
directory: project and global specs tested on the `/`-suffixed path
relative to the base directory (a `ValueError` means not ignored). -/
def is_directory_ignored (fset : FilterSettings) (base dirPath : AbsPath) : Bool :=
  match relativeTo dirPath base with
  | none => false
  | some rel =>
    let relPathStr := relStr rel ++ "/"
    if matchOpt fset.ignore_spec relPathStr then true
    else if matchOpt fset.global_ignore_spec relPathStr then true
    else false

/-- Embedding of `_is_directory_ignored_by_name`: hidden name, project
spec, local spec, global spec, each on the appropriate `/`-suffixed
relative path. -/
def is_directory_ignored_by_name (fset : FilterSettings) (dirName : String)
    (rrb rrc : List String) (localSpec : Option (String → Bool)) : Bool :=
  if startsWithDot dirName then true
  else
    let fullDirPathStr := relStr (rrb ++ [dirName]) ++ "/"
    if matchOpt fset.ignore_spec fullDirPathStr then true
    else if matchOpt localSpec (relStr (rrc ++ [dirName]) ++ "/") then true
    else if matchOpt fset.global_ignore_spec fullDirPathStr then true
    else false

/-- The per-directory file loop of `_discover_directory_recursive`: each
file name (in sorted order) is stat'ed and tested with
`_should_include_file`; accepted files are appended and their
(device, inode) recorded at once. -/
def process_files (fset : FilterSettings) (base : AbsPath)
    (localSpec : Option (String → Bool)) (root : AbsPath) (rrc : List String)
    (entries : List (String × FSNode)) :
    List String → List (Nat × Nat) → List AbsPath × List (Nat × Nat)
  | [], seen => ([], seen)
  | n :: rest, seen =>
    match lookupEntry n entries with
    | some node =>
      if should_include_file fset base (root.child n) node seen localSpec (some rrc) then
        match node with
        | .file d =>
          let r := process_files fset base localSpec root rrc entries rest
            (seen ++ [(d.dev, d.ino)])
          (root.child n :: r.1, r.2)
        | _ => process_files fset base localSpec root rrc entries rest seen
      else process_files fset base localSpec root rrc entries rest seen
    | none => process_files fset base localSpec root rrc entries rest seen

/-- Descent into the surviving subdirectories, in their sorted order,
threading the seen set; `recur` is the walk at the next level. -/
def walkKids (recur : AbsPath → List (String × FSNode) → List (Nat × Nat) →
      List AbsPath × List (Nat × Nat))
    (root : AbsPath) (entries : List (String × FSNode)) :
    List String → List (Nat × Nat) → List AbsPath × List (Nat × Nat)
  | [], seen => ([], seen)
  | n :: rest, seen =>
    match lookupEntry n entries with
    | some (.dir childEntries) =>
      let r1 := recur (root.child n) childEntries seen
      let r2 := walkKids recur root entries rest r1.2
      (r1.1 ++ r2.1, r2.2)
    | _ => walkKids recur root entries rest seen

/-- Embedding of one `os.walk` level of `_discover_directory_recursive`
(fuelled; the fuel is always at least the tree height where the walker
calls it): sort the subdirectory and file names case-insensitively,
compute the two relative roots (a `ValueError` prunes the whole subtree),
filter the subdirectories in place, process the files of this level, then
descend into the kept subdirectories. The local ignore spec is the one
passed in; it is never reloaded during descent. -/
def walkF (fset : FilterSettings) (base dirPath : AbsPath)
    (localSpec : Option (String → Bool)) :
    Nat → AbsPath → List (String × FSNode) → List (Nat × Nat) →
    List AbsPath × List (Nat × Nat)
  | 0, _, _, seen => ([], seen)
  | fuel + 1, root, entries, seen =>
    let dirNames := sortIC ((entries.filter (fun e => entryIsDir e.2)).map (fun e => e.1))
    let fileNames := sortIC ((entries.filter (fun e => ! entryIsDir e.2)).map (fun e => e.1))
    match relativeTo root base, relativeTo root dirPath with
    | some rrb, some rrc =>
      let kept := dirNames.filter
        (fun n => ! is_directory_ignored_by_name fset n rrb rrc localSpec)
      let r1 := process_files fset base localSpec root rrc entries fileNames seen
      let r2 := walkKids (fun r e s => walkF fset base dirPath localSpec fuel r e s)
        root entries kept r1.2
      (r1.1 ++ r2.1, r2.2)
    | _, _ => ([], seen)

/-- Embedding of `_discover_directory_recursive` on a selected directory:
the fuelled walk with fuel one more than the listing height. -/
def discover_directory_recursive (fset : FilterSettings) (base dirPath : AbsPath)
    (localSpec : Option (String → Bool)) (entries : List (String × FSNode))
    (seen : List (Nat × Nat)) : List AbsPath × List (Nat × Nat) :=
  walkF fset base dirPath localSpec (depthE entries + 1) dirPath entries seen

/-- The per-selected-path loop body of `discover_files`: stat the path; a
regular file goes through the single-file test, a directory through the
top-level ignore test, local-spec loading and the recursive walk; special
nodes and stat failures are skipped. -/
def discover_loop (compile : List String → String → Bool) (fs : FSNode)
    (cfg : WorkerConfig) :
    List AbsPath → List (Nat × Nat) → List AbsPath × List (Nat × Nat)
  | [], seen => ([], seen)
  | p :: rest, seen =>
    let base := cfg.generation_options.base_directory
    let fset := cfg.filter_settings
    match resolveAt fs p with
    | some (.file d) =>
      if should_include_file fset base p (.file d) seen none none then
        let r := discover_loop compile fs cfg rest (seen ++ [(d.dev, d.ino)])
        (p :: r.1, r.2)
      else discover_loop compile fs cfg rest seen
    | some (.dir entries) =>
      if is_directory_ignored fset base p then discover_loop compile fs cfg rest seen
      else
        let localSpec := load_ignore_patterns compile entries
          fset.use_gitignore fset.use_npmignore fset.use_dockerignore
        let r1 := discover_directory_recursive fset base p localSpec entries seen
        let r2 := discover_loop compile fs cfg rest r1.2
        (r1.1 ++ r2.1, r2.2)
    | _ => discover_loop compile fs cfg rest seen

/-- Embedding of `ProjectFileWalker.discover_files`: sort the selected
paths in place (case-insensitively by final name), run the loop, and
return the discovered list, its length, and the post-call value of
`config.generation_options.selected_paths`. -/
def discover_files (compile : List String → String → Bool) (fs : FSNode)
    (cfg : WorkerConfig) : List AbsPath × Nat × List AbsPath :=
  let sortedPaths := stableSortBy (keyLE (fun p => pyLower (AbsPath.name p)))
    cfg.generation_options.selected_paths
  let r := discover_loop compile fs cfg sortedPaths []
  (r.1, r.1.length, sortedPaths)

/-- The stat identity `(st_dev, st_ino)` of the regular file at a path,
when the path resolves to one. -/
def statPair (fs : FSNode) (p : AbsPath) : Option (Nat × Nat) :=
  match resolveAt fs p with
  | some (.file d) => some (d.dev, d.ino)
  | _ => none

/-- Replacing the text lines of a file by `g` of them, all other
observables unchanged. -/
def mapLinesData (g : List String → List String) (d : FileData) : FileData :=
  ⟨d.dev, d.ino, d.size, d.bytes, d.readError, g d.lines, d.decode⟩

mutual

/-- Replacing the text lines of every file in a tree by `g` of them. -/
def mapLinesNode (g : List String → List String) : FSNode → FSNode
  | .file d => .file (mapLinesData g d)
  | .dir entries => .dir (mapLinesEntries g entries)
  | .special => .special

/-- Replacing the text lines of every file below a listing by `g` of
them. -/
def mapLinesEntries (g : List String → List String) :
    List (String × FSNode) → List (String × FSNode)
  | [] => []
  | e :: rest => (e.1, mapLinesNode g e.2) :: mapLinesEntries g rest

end

/-! Concrete fixtures used by witnesses and counterexamples. -/

/-- A small plain text file with inode `i`. -/
def fdPlain (i : Nat) : FileData :=
  ⟨1, i, 5, [104, 105], false, [], fun _ => DecodeResult.decodeError⟩

/-- A file with a NUL byte among its first bytes, inode `i`. -/
def fdNul (i : Nat) : FileData :=
  ⟨1, i, 4, [104, 0, 105], false, [], fun _ => DecodeResult.decodeError⟩

/-- An ignore-pattern file holding the pattern lines `pats`, inode `i`. -/
def fdIgnoreFile (i : Nat) (pats : List String) : FileData :=
  ⟨1, i, 3, [35], false, pats, fun _ => DecodeResult.decodeError⟩

/-- A filter configuration selecting exactly the `.py` extension, catch-all
off, no project or global spec, gitignore handling on. -/
def fsetPy : FilterSettings :=
  ⟨[".py"], [], [".py"], [], false, none, none, true, false, false⟩

/-- A filter configuration with nothing selected, `license` known to some
category, and the catch-all enabled. -/
def fsetDocOff : FilterSettings :=
  ⟨[], [], [".md"], ["license"], true, none, none, true, false, false⟩

/-- Witness base directory `/b`. -/
def baseW : AbsPath := ⟨["b"]⟩

/-- Witness file `/b/x.py`. -/
def pW : AbsPath := ⟨["b", "x.py"]⟩

/-- Witness file data for `pW`. -/
def fdW : FileData := fdPlain 10

/-- Listing of `/b/sub` for the nested-ignore-file counterexample: a
`.gitignore` that lists `secret.py`, plus two Python files. -/
def subEntriesC2 : List (String × FSNode) :=
  [(".gitignore", .file (fdIgnoreFile 90 ["secret.py"])),
   ("main.py", .file (fdPlain 11)),
   ("secret.py", .file (fdPlain 12))]

/-- Filesystem for the nested-ignore-file counterexample. -/
def fsC2 : FSNode := .dir [("b", .dir [("sub", .dir subEntriesC2)])]

/-- Configuration for the nested-ignore-file counterexample: `/b` selected,
base `/b`. -/
def cfgC2 : WorkerConfig := ⟨fsetPy, ⟨[⟨["b"]⟩], ⟨["b"]⟩⟩⟩

/-- Listing of the selected directory `/b/sel` for the local-spec anchor
counterexample: its `.gitignore` holds the anchored pattern `x/deny.py`,
and `x/deny.py` exists below it. -/
def selEntriesC3 : List (String × FSNode) :=
  [(".gitignore", .file (fdIgnoreFile 91 ["x/deny.py"])),
   ("x", .dir [("deny.py", .file (fdPlain 21))])]

/-- Filesystem for the local-spec anchor counterexample. -/
def fsC3 : FSNode := .dir [("b", .dir [("sel", .dir selEntriesC3)])]

/-- Configuration for the local-spec anchor counterexample: `/b/sel`
selected while the base directory is `/b`. -/
def cfgC3 : WorkerConfig := ⟨fsetPy, ⟨[⟨["b", "sel"]⟩], ⟨["b"]⟩⟩⟩

/-- A directory listing holding only `.git/info/exclude` with one pattern
line, and no ignore file of any enabled kind. -/
def entriesC4 : List (String × FSNode) :=
  [(".git", .dir [("info", .dir [("exclude", .file (fdIgnoreFile 92 ["secret.txt"]))])])]

/-- Listing of `/b` for the binary-exclusion witness: `data.py` has a NUL
byte among its first bytes, `ok.py` does not. -/
def entriesC8 : List (String × FSNode) :=
  [("data.py", .file (fdNul 41)), ("ok.py", .file (fdPlain 42))]

/-- Filesystem for the binary-exclusion witness. -/
def fsC8 : FSNode := .dir [("b", .dir entriesC8)]

/-- Configuration for the binary-exclusion witness. -/
def cfgC8 : WorkerConfig := ⟨fsetPy, ⟨[⟨["b"]⟩], ⟨["b"]⟩⟩⟩

/-- Filesystem for the ordering witness: two directories `a` and `b`, one
Python file in each. -/
def fsW7 : FSNode :=
  .dir [("a", .dir [("f1.py", .file (fdPlain 31))]),
        ("b", .dir [("f2.py", .file (fdPlain 32))])]

/-- Ordering witness configuration with selected paths `[a, b]`. -/
def cfgW7a : WorkerConfig := ⟨fsetPy, ⟨[⟨["a"]⟩, ⟨["b"]⟩], ⟨[]⟩⟩⟩

/-- Ordering witness configuration with selected paths `[b, a]`. -/
def cfgW7b : WorkerConfig := ⟨fsetPy, ⟨[⟨["b"]⟩, ⟨["a"]⟩], ⟨[]⟩⟩⟩

/-! Order theory for the embedded string comparison and the stable sort. -/

theorem charListLE_refl (a : List Char) : charListLE a a = true := by
  induction a with
  | nil => rfl
  | cons x xs ih => simp [charListLE, ih]

theorem charListLE_total (a b : List Char) (h : charListLE a b = false) :
    charListLE b a = true := by
  induction a generalizing b with
  | nil => simp [charListLE] at h
  | cons x xs ih =>
    cases b with
    | nil => simp [charListLE]
    | cons y ys =>
      simp only [charListLE] at h ⊢
      by_cases hxy : x.toNat < y.toNat
      · simp [hxy] at h
      · by_cases hyx : y.toNat < x.toNat
        · simp [hyx]
        · simp [hxy, hyx] at h ⊢
          exact ih ys h

theorem charListLE_trans (a b c : List Char) (hab : charListLE a b = true)
    (hbc : charListLE b c = true) : charListLE a c = true := by
  induction a generalizing b c with
  | nil => simp [charListLE]
  | cons x xs ih =>
    cases b with
    | nil => simp [charListLE] at hab
    | cons y ys =>
      cases c with
      | nil => simp [charListLE] at hbc
      | cons z zs =>
        simp only [charListLE] at hab hbc ⊢
        by_cases hxy : x.toNat < y.toNat
        · by_cases hyz : y.toNat < z.toNat
          · simp [show x.toNat < z.toNat by omega]
          · by_cases hzy : z.toNat < y.toNat
            · simp [hyz, hzy] at hbc
            · have : y.toNat = z.toNat := by omega
              simp [show x.toNat < z.toNat by omega]
        · by_cases hyx : y.toNat < x.toNat
          · simp [hxy, hyx] at hab
          · have hxyeq : x.toNat = y.toNat := by omega
            by_cases hyz : y.toNat < z.toNat
            · simp [show x.toNat < z.toNat by omega]
            · by_cases hzy : z.toNat < y.toNat
              · simp [hyz, hzy] at hbc
              · have : y.toNat = z.toNat := by omega
                simp [hxy, hyx] at hab
                simp [hyz, hzy] at hbc
                simp [show ¬ x.toNat < z.toNat by omega,
                      show ¬ z.toNat < x.toNat by omega]
                exact ih ys zs hab hbc

theorem charToNat_inj {x y : Char} (h : x.toNat = y.toNat) : x = y :=
  Char.ext (UInt32.toNat.inj h)

theorem charListLE_antisymm (a b : List Char) (hab : charListLE a b = true)
    (hba : charListLE b a = true) : a = b := by
  induction a generalizing b with
  | nil =>
    cases b with
    | nil => rfl
    | cons y ys => simp [charListLE] at hba
  | cons x xs ih =>
    cases b with
    | nil => simp [charListLE] at hab
    | cons y ys =>
      simp only [charListLE] at hab hba
      by_cases hxy : x.toNat < y.toNat
      · simp [show ¬ y.toNat < x.toNat by omega, hxy] at hba
      · by_cases hyx : y.toNat < x.toNat
        · simp [hxy, hyx] at hab
        · have hx : x = y := charToNat_inj (by omega)
          simp [hxy, hyx] at hab hba
          rw [hx, ih ys hab hba]

theorem keyLE_total {α : Type} (K : α → String) (a b : α)
    (h : keyLE K a b = false) : keyLE K b a = true :=
  charListLE_total _ _ h

theorem keyLE_trans {α : Type} (K : α → String) (a b c : α)
    (hab : keyLE K a b = true) (hbc : keyLE K b c = true) : keyLE K a c = true :=
  charListLE_trans _ _ _ hab hbc

theorem keyLE_antisymm {α : Type} (K : α → String) (a b : α)
    (hab : keyLE K a b = true) (hba : keyLE K b a = true) : K a = K b := by
  have h := charListLE_antisymm _ _ hab hba
  cases hKa : K a with
  | mk da =>
    cases hKb : K b with
    | mk db =>
      rw [hKa, hKb] at h
      have h2 : da = db := h
      rw [h2]

theorem perm_insertLE {α : Type} (le : α → α → Bool) (a : α) (l : List α) :
    List.Perm (insertLE le a l) (a :: l) := by
  induction l with
  | nil => exact List.Perm.refl _
  | cons b t ih =>
    simp only [insertLE]
    by_cases h : le a b
    · simp [h]
    · simp only [h, if_false]
      exact List.Perm.trans (List.Perm.cons b ih) (List.Perm.swap a b t)

theorem perm_stableSortBy {α : Type} (le : α → α → Bool) (l : List α) :
    List.Perm (stableSortBy le l) l := by
  induction l with
  | nil => exact List.Perm.refl _
  | cons a t ih =>
    simp only [stableSortBy]
    exact List.Perm.trans (perm_insertLE le a _) (List.Perm.cons a ih)

theorem mem_insertLE {α : Type} (le : α → α → Bool) (a x : α) (l : List α) :
    x ∈ insertLE le a l ↔ x = a ∨ x ∈ l := by
  have h := @List.Perm.mem_iff _ x _ _ (perm_insertLE le a l)
  simp only [List.mem_cons] at h
  exact h

theorem sorted_insertLE {α : Type} (le : α → α → Bool)
    (htot : ∀ a b, le a b = false → le b a = true)
    (htrans : ∀ a b c, le a b = true → le b c = true → le a c = true)
    (a : α) (l : List α) (h : l.Pairwise (fun x y => le x y = true)) :
    (insertLE le a l).Pairwise (fun x y => le x y = true) := by
  induction l with
  | nil => simp [insertLE]
  | cons b t ih =>
    rcases List.pairwise_cons.mp h with ⟨hb, ht⟩
    simp only [insertLE]
    by_cases hab : le a b
    · simp only [hab, if_true]
      refine List.pairwise_cons.mpr ⟨?_, h⟩
      intro y hy
      rcases List.mem_cons.mp hy with h1 | h2
      · rw [h1]; exact hab
      · exact htrans a b y hab (hb y h2)
    · simp only [hab, if_false]
      refine List.pairwise_cons.mpr ⟨?_, ih ht⟩
      intro y hy
      rcases (mem_insertLE le a y t).mp hy with h1 | h2
      · rw [h1]
        exact htot a b (by simpa using hab)
      · exact hb y h2

theorem sorted_stableSortBy {α : Type} (le : α → α → Bool)
    (htot : ∀ a b, le a b = false → le b a = true)
    (htrans : ∀ a b c, le a b = true → le b c = true → le a c = true)
    (l : List α) :
    (stableSortBy le l).Pairwise (fun x y => le x y = true) := by
  induction l with
  | nil => simp [stableSortBy]
  | cons a t ih =>
    simp only [stableSortBy]
    exact sorted_insertLE le htot htrans a _ ih

theorem sorted_perm_eq {α : Type} (K : α → String) :
    ∀ (l₁ l₂ : List α), List.Perm l₁ l₂ →
    l₁.Pairwise (fun x y => keyLE K x y = true) →
    l₂.Pairwise (fun x y => keyLE K x y = true) →
    (l₁.map K).Nodup → l₁ = l₂
  | [], l₂, hp, _, _, _ => by
    rw [hp.nil_eq]
  | a :: t₁, l₂, hp, hs₁, hs₂, hnd => by
    have ha₂ : a ∈ l₂ := hp.mem_iff.mp (List.mem_cons_self a t₁)
    cases l₂ with
    | nil => exact absurd (hp.symm.nil_eq) (by simp)
    | cons b t₂ =>
      rcases List.pairwise_cons.mp hs₁ with ⟨hha, hta⟩
      rcases List.pairwise_cons.mp hs₂ with ⟨hhb, htb⟩
      have hb₁ : b ∈ a :: t₁ := hp.symm.mem_iff.mp (List.mem_cons_self b t₂)
      have hab : a = b := by
        rcases List.mem_cons.mp hb₁ with h1 | h2
        · exact h1.symm
        · rcases List.mem_cons.mp ha₂ with h3 | h4
          · exact h3
          · have h5 : keyLE K a b = true := hha b h2
            have h6 : keyLE K b a = true := hhb a h4
            have h7 : K a = K b := keyLE_antisymm K a b h5 h6
            have hnd' := hnd
            rw [List.map_cons] at hnd'
            rcases List.nodup_cons.mp hnd' with ⟨hna, _⟩
            exact absurd (h7 ▸ List.mem_map_of_mem K h2) hna
      subst hab
      have hp' : List.Perm t₁ t₂ := (List.perm_cons a).mp hp
      have : t₁ = t₂ := sorted_perm_eq K t₁ t₂ hp' hta htb
        (by
          have hnd' := hnd
          rw [List.map_cons] at hnd'
          exact (List.nodup_cons.mp hnd').2)
      rw [this]

/-- Case-insensitive stable sorting is determined by the multiset of
elements once the lower-cased keys are pairwise distinct. -/
theorem stableSortBy_eq_of_perm {α : Type} (K : α → String) (l l' : List α)
    (hp : List.Perm l' l) (hnd : (l.map K).Nodup) :
    stableSortBy (keyLE K) l' = stableSortBy (keyLE K) l := by
  refine sorted_perm_eq K _ _ ?_ ?_ ?_ ?_
  · exact ((perm_stableSortBy _ l').trans hp).trans (perm_stableSortBy _ l).symm
  · exact sorted_stableSortBy _ (keyLE_total K) (keyLE_trans K) l'
  · exact sorted_stableSortBy _ (keyLE_total K) (keyLE_trans K) l
  · have hperm : List.Perm (stableSortBy (keyLE K) l') l := (perm_stableSortBy _ l').trans hp
    exact (hperm.map K).nodup_iff.mpr hnd

/-! Resolution lemmas. -/

theorem resolve_append (node : FSNode) (l₁ l₂ : List String) :
    resolve node (l₁ ++ l₂) = (resolve node l₁).bind (fun m => resolve m l₂) := by
  induction l₁ generalizing node with
  | nil => simp [resolve]
  | cons c rest ih =>
    cases node with
    | file d => simp [resolve]
    | special => simp [resolve]
    | dir entries =>
      simp only [List.cons_append, resolve]
      cases lookupEntry c entries with
      | none => simp
      | some child => simpa using ih child

theorem resolve_child {fs : FSNode} {root : AbsPath} {entries : List (String × FSNode)}
    {n : String} {c : FSNode} (hroot : resolveAt fs root = some (.dir entries))
    (hlook : lookupEntry n entries = some c) :
    resolveAt fs (root.child n) = some c := by
  unfold resolveAt AbsPath.child at *
  rw [resolve_append, hroot]
  simp [resolve, hlook]

/-! Decomposition of the single-file inclusion test. -/

theorem should_include_iff (fset : FilterSettings) (base filePath : AbsPath)
    (node : FSNode) (seen : List (Nat × Nat)) (localSpec : Option (String → Bool))
    (rrcOpt : Option (List String)) (r : List String)
    (hrel : relativeTo filePath base = some r) :
    should_include_file fset base filePath node seen localSpec rrcOpt = true ↔
      ∃ d, node = FSNode.file d ∧ 0 < d.size ∧
        startsWithDot filePath.name = false ∧
        (d.dev, d.ino) ∉ seen ∧
        matchOpt fset.ignore_spec (relStr r) = false ∧
        local_ignore_rejects base filePath localSpec rrcOpt = false ∧
        matchOpt fset.global_ignore_spec (relStr r) = false ∧
        matches_file_type filePath.name d fset.selected_extensions
          fset.selected_filenames fset.all_known_extensions
          fset.all_known_filenames fset.handle_other_text_files = true ∧
        is_binary_file d = false := by
  cases node with
  | dir entries =>
    simp only [should_include_file]
    constructor
    · intro h; exact absurd h (by simp)
    · rintro ⟨d, hd, -⟩; exact FSNode.noConfusion hd
  | special =>
    simp only [should_include_file]
    constructor
    · intro h; exact absurd h (by simp)
    · rintro ⟨d, hd, -⟩; exact FSNode.noConfusion hd
  | file d =>
    simp only [should_include_file, hrel]
    constructor
    · intro h
      split_ifs at h with h1 h2 h3 h4 h5 h6 h7 h8
      refine ⟨d, rfl, by omega, by simpa using h2, ?_, by simpa using h4,
        by simpa using h5, by simpa using h6, ?_, by simpa using h8⟩
      · intro hmem
        exact h3 (by simp [List.contains, hmem])
      · rcases Bool.eq_false_or_eq_true (matches_file_type filePath.name d
          fset.selected_extensions fset.selected_filenames fset.all_known_extensions
          fset.all_known_filenames fset.handle_other_text_files) with hm | hm
        · exact hm
        · exact absurd (by simp [hm]) h7
    · rintro ⟨d', hd, hsize, hhid, hseen, hproj, hloc, hglob, hmatch, hbin⟩
      have hdd : d = d' := by injection hd
      subst hdd
      have hcont : seen.contains (d.dev, d.ino) = false := by
        simp [List.contains]
        intro hmem
        exact absurd hmem hseen
      simp [show ¬ d.size = 0 by omega, hhid, hcont, hseen, hproj, hloc, hglob,
        hmatch, hbin]

/-- C1: a candidate file reaching `_should_include_file` (top-level or
during recursion) is accepted exactly when it is a regular file of
positive size, its name is not hidden, its (device, inode) pair is not yet
seen, its base-relative path matches neither the project nor the global
ignore spec, the local-ignore check does not reject it, the file type
matcher accepts it, and the binary sniff clears it. -/
theorem c1_single_file_inclusion (fset : FilterSettings) (base filePath : AbsPath)
    (node : FSNode) (seen : List (Nat × Nat)) (localSpec : Option (String → Bool))
    (rrcOpt : Option (List String)) (r : List String)
    (hrel : relativeTo filePath base = some r) :
    should_include_file fset base filePath node seen localSpec rrcOpt = true ↔
      ∃ d, node = FSNode.file d ∧ 0 < d.size ∧
        startsWithDot filePath.name = false ∧
        (d.dev, d.ino) ∉ seen ∧
        matchOpt fset.ignore_spec (relStr r) = false ∧
        local_ignore_rejects base filePath localSpec rrcOpt = false ∧
        matchOpt fset.global_ignore_spec (relStr r) = false ∧
        matches_file_type filePath.name d fset.selected_extensions
          fset.selected_filenames fset.all_known_extensions
          fset.all_known_filenames fset.handle_other_text_files = true ∧
        is_binary_file d = false :=
  should_include_iff fset base filePath node seen localSpec rrcOpt r hrel

/-- C1 witness: the plain Python file `/b/x.py` is accepted under the
Python-only configuration, through the decomposition. -/
theorem c1_single_file_inclusion_witness :
    should_include_file fsetPy baseW pW (FSNode.file fdW) [] none none = true :=
  (c1_single_file_inclusion fsetPy baseW pW (FSNode.file fdW) [] none none
    ["x.py"] rfl).mpr
    ⟨fdW, rfl, by decide, by decide, by simp, rfl, rfl, rfl, by decide, by decide⟩

/-! The category-completeness guard of the file type matcher. -/

/-- C5: a file whose lower-cased name or extension belongs to the complete
category universe but which matches no selected name and no selected
extension is rejected even with the catch-all enabled; and any file the
matcher accepts is accepted by selected name, selected extension, or by
the catch-all with name and extension unknown to every category and the
text-likelihood heuristic passing. -/
theorem c5_category_completeness_guard (name : String) (d : FileData)
    (selected_exts selected_names all_exts all_names : List String)
    (handle_other : Bool) :
    ((pyLower name ∈ all_names ∨ pyLower (pySuffix name) ∈ all_exts) →
      pyLower name ∉ selected_names → pyLower (pySuffix name) ∉ selected_exts →
      matches_file_type name d selected_exts selected_names all_exts all_names
        handle_other = false)
    ∧ (matches_file_type name d selected_exts selected_names all_exts all_names
        handle_other = true →
      pyLower name ∈ selected_names ∨ pyLower (pySuffix name) ∈ selected_exts ∨
        (handle_other = true ∧ pyLower name ∉ all_names ∧
         pyLower (pySuffix name) ∉ all_exts ∧ is_likely_text_file name d = true)) := by
  constructor
  · intro hknown hnm hext
    simp only [matches_file_type]
    split_ifs with hA hB hC
    · exact absurd (by simpa [List.contains] using hA) hnm
    · exact absurd (by simpa [List.contains] using hB) hext
    · exfalso
      have hC' := hC
      simp only [Bool.and_eq_true, Bool.not_eq_true'] at hC'
      rcases hC' with ⟨⟨-, hc1⟩, hc2⟩
      rcases hknown with h | h
      · have hx : all_names.contains (pyLower name) = true := by
          simpa [List.contains] using h
        rw [hc1] at hx
        exact Bool.noConfusion hx
      · have hx : all_exts.contains (pyLower (pySuffix name)) = true := by
          simpa [List.contains] using h
        rw [hc2] at hx
        exact Bool.noConfusion hx
    · rfl
  · intro h
    simp only [matches_file_type] at h
    split_ifs at h with hA hB hC
    · exact Or.inl (by simpa [List.contains] using hA)
    · exact Or.inr (Or.inl (by simpa [List.contains] using hB))
    · have hC' := hC
      simp only [Bool.and_eq_true, Bool.not_eq_true'] at hC'
      rcases hC' with ⟨⟨ho, hc1⟩, hc2⟩
      refine Or.inr (Or.inr ⟨ho, ?_, ?_, h⟩)
      · intro hm
        have hx : all_names.contains (pyLower name) = true := by
          simpa [List.contains] using hm
        rw [hc1] at hx
        exact Bool.noConfusion hx
      · intro hm
        have hx : all_exts.contains (pyLower (pySuffix name)) = true := by
          simpa [List.contains] using hm
        rw [hc2] at hx
        exact Bool.noConfusion hx

/-- C5 witness: the file `LICENSE` (lower-cased name `license`, known to
the Documentation category) is rejected while Documentation is unselected,
even though the catch-all is enabled. -/
theorem c5_category_completeness_guard_witness :
    matches_file_type "LICENSE" (fdPlain 1) [] [] [".md"] ["license"] true = false :=
  (c5_category_completeness_guard "LICENSE" (fdPlain 1) [] [] [".md"] ["license"]
    true).1 (Or.inl (by decide)) (by simp) (by simp)

/-! Walk invariants: the seen set grows, every emitted path resolves to a
non-binary regular file whose stat pair was fresh, and the emitted stat
pairs are pairwise distinct. -/

theorem should_include_props {fset : FilterSettings} {base filePath : AbsPath}
    {node : FSNode} {seen : List (Nat × Nat)} {localSpec : Option (String → Bool)}
    {rrcOpt : Option (List String)}
    (h : should_include_file fset base filePath node seen localSpec rrcOpt = true) :
    ∃ d, node = FSNode.file d ∧ 0 < d.size ∧ is_binary_file d = false ∧
      (d.dev, d.ino) ∉ seen := by
  cases node with
  | dir entries => exact absurd h (by simp [should_include_file])
  | special => exact absurd h (by simp [should_include_file])
  | file d =>
    cases hrel : relativeTo filePath base with
    | none =>
      simp only [should_include_file, hrel] at h
      split_ifs at h
    | some r =>
      simp only [should_include_file, hrel] at h
      split_ifs at h with h1 h2 h3 h4 h5 h6 h7 h8
      refine ⟨d, rfl, by omega, by simpa using h8, ?_⟩
      intro hmem
      exact h3 (by simp [List.contains, hmem])

theorem statPair_of_resolve {fs : FSNode} {p : AbsPath} {d : FileData}
    (h : resolveAt fs p = some (FSNode.file d)) :
    statPair fs p = some (d.dev, d.ino) := by
  simp [statPair, h]

theorem process_files_inv (fs : FSNode) (fset : FilterSettings) (base : AbsPath)
    (localSpec : Option (String → Bool)) (root : AbsPath) (rrc : List String)
    (entries : List (String × FSNode))
    (hroot : resolveAt fs root = some (FSNode.dir entries)) :
    ∀ (names : List String) (seen : List (Nat × Nat)),
      (∀ k, k ∈ seen →
        k ∈ (process_files fset base localSpec root rrc entries names seen).2) ∧
      (∀ q ∈ (process_files fset base localSpec root rrc entries names seen).1,
        ∃ d, resolveAt fs q = some (FSNode.file d) ∧ is_binary_file d = false ∧
          (d.dev, d.ino) ∉ seen ∧
          (d.dev, d.ino) ∈ (process_files fset base localSpec root rrc entries names seen).2) ∧
      ((process_files fset base localSpec root rrc entries names seen).1.map
        (statPair fs)).Nodup
  | [], seen => by
    refine ⟨fun k hk => hk, ?_, by simp [process_files]⟩
    intro q hq
    simp [process_files] at hq
  | n :: rest, seen => by
    cases hl : lookupEntry n entries with
    | none =>
      have ih := process_files_inv fs fset base localSpec root rrc entries hroot rest seen
      simpa only [process_files, hl] using ih
    | some node =>
      by_cases hsi : should_include_file fset base (root.child n) node seen
          localSpec (some rrc) = true
      · rcases should_include_props hsi with ⟨d, hd, hsize, hbin, hfresh⟩
        subst hd
        have ih := process_files_inv fs fset base localSpec root rrc entries hroot rest
          (seen ++ [(d.dev, d.ino)])
        rcases ih with ⟨iha, ihb, ihc⟩
        have hchild : resolveAt fs (root.child n) = some (FSNode.file d) :=
          resolve_child hroot hl
        have hstep : process_files fset base localSpec root rrc entries (n :: rest) seen =
            (root.child n ::
              (process_files fset base localSpec root rrc entries rest
                (seen ++ [(d.dev, d.ino)])).1,
             (process_files fset base localSpec root rrc entries rest
                (seen ++ [(d.dev, d.ino)])).2) := by
          simp only [process_files, hl, hsi, if_true]
        rw [hstep]
        refine ⟨?_, ?_, ?_⟩
        · intro k hk
          exact iha k (by simp [hk])
        · intro q hq
          rcases List.mem_cons.mp hq with hq1 | hq2
          · subst hq1
            exact ⟨d, hchild, hbin, hfresh, iha (d.dev, d.ino) (by simp)⟩
          · rcases ihb q hq2 with ⟨d', hres, hbin', hfresh', hmem'⟩
            exact ⟨d', hres, hbin', fun hk => hfresh' (by simp [hk]), hmem'⟩
        · rw [List.map_cons]
          refine List.nodup_cons.mpr ⟨?_, ihc⟩
          rw [statPair_of_resolve hchild]
          intro hmem
          rcases List.mem_map.mp hmem with ⟨q, hq, hkey⟩
          rcases ihb q hq with ⟨d', hres, -, hfresh', -⟩
          rw [statPair_of_resolve hres] at hkey
          have : (d'.dev, d'.ino) = (d.dev, d.ino) := by
            injection hkey
          exact hfresh' (by simp [this])
      · have hsi' : should_include_file fset base (root.child n) node seen
            localSpec (some rrc) = false := by
          simpa using hsi
        have ih := process_files_inv fs fset base localSpec root rrc entries hroot rest seen
        cases node with
        | file d =>
          simpa only [process_files, hl, hsi', Bool.false_eq_true, if_false] using ih
        | dir es =>
          simpa only [process_files, hl, hsi', Bool.false_eq_true, if_false] using ih
        | special =>
          simpa only [process_files, hl, hsi', Bool.false_eq_true, if_false] using ih

theorem walkKids_inv (fs : FSNode)
    (recur : AbsPath → List (String × FSNode) → List (Nat × Nat) →
      List AbsPath × List (Nat × Nat))
    (hrec : ∀ root' entries' seen',
      resolveAt fs root' = some (FSNode.dir entries') →
      (∀ k, k ∈ seen' → k ∈ (recur root' entries' seen').2) ∧
      (∀ q ∈ (recur root' entries' seen').1,
        ∃ d, resolveAt fs q = some (FSNode.file d) ∧ is_binary_file d = false ∧
          (d.dev, d.ino) ∉ seen' ∧ (d.dev, d.ino) ∈ (recur root' entries' seen').2) ∧
      ((recur root' entries' seen').1.map (statPair fs)).Nodup)
    (root : AbsPath) (entries : List (String × FSNode))
    (hroot : resolveAt fs root = some (FSNode.dir entries)) :
    ∀ (names : List String) (seen : List (Nat × Nat)),
      (∀ k, k ∈ seen → k ∈ (walkKids recur root entries names seen).2) ∧
      (∀ q ∈ (walkKids recur root entries names seen).1,
        ∃ d, resolveAt fs q = some (FSNode.file d) ∧ is_binary_file d = false ∧
          (d.dev, d.ino) ∉ seen ∧ (d.dev, d.ino) ∈ (walkKids recur root entries names seen).2) ∧
      ((walkKids recur root entries names seen).1.map (statPair fs)).Nodup
  | [], seen => by
    refine ⟨fun k hk => hk, ?_, by simp [walkKids]⟩
    intro q hq
    simp [walkKids] at hq
  | n :: rest, seen => by
    cases hl : lookupEntry n entries with
    | none =>
      have ih := walkKids_inv fs recur hrec root entries hroot rest seen
      simpa only [walkKids, hl] using ih
    | some node =>
      cases node with
      | file d =>
        have ih := walkKids_inv fs recur hrec root entries hroot rest seen
        simpa only [walkKids, hl] using ih
      | special =>
        have ih := walkKids_inv fs recur hrec root entries hroot rest seen
        simpa only [walkKids, hl] using ih
      | dir childEntries =>
        have hchild : resolveAt fs (root.child n) = some (FSNode.dir childEntries) :=
          resolve_child hroot hl
        rcases hrec (root.child n) childEntries seen hchild with ⟨ra, rb, rc⟩
        rcases walkKids_inv fs recur hrec root entries hroot rest
          (recur (root.child n) childEntries seen).2 with ⟨ia, ib, ic⟩
        have hstep : walkKids recur root entries (n :: rest) seen =
            ((recur (root.child n) childEntries seen).1 ++
              (walkKids recur root entries rest
                (recur (root.child n) childEntries seen).2).1,
             (walkKids recur root entries rest
                (recur (root.child n) childEntries seen).2).2) := by
          simp only [walkKids, hl]
        rw [hstep]
        refine ⟨?_, ?_, ?_⟩
        · intro k hk
          exact ia k (ra k hk)
        · intro q hq
          rcases List.mem_append.mp hq with hq1 | hq2
          · rcases rb q hq1 with ⟨d, hres, hbin, hfresh, hmem⟩
            exact ⟨d, hres, hbin, hfresh, ia _ hmem⟩
          · rcases ib q hq2 with ⟨d, hres, hbin, hfresh, hmem⟩
            exact ⟨d, hres, hbin, fun hk => hfresh (ra _ hk), hmem⟩
        · rw [List.map_append]
          refine List.nodup_append.mpr ⟨rc, ic, ?_⟩
          intro x hx1 hx2
          rcases List.mem_map.mp hx1 with ⟨q1, hq1, hk1⟩
          rcases List.mem_map.mp hx2 with ⟨q2, hq2, hk2⟩
          rcases rb q1 hq1 with ⟨d1, hres1, -, -, hmem1⟩
          rcases ib q2 hq2 with ⟨d2, hres2, -, hfresh2, -⟩
          rw [statPair_of_resolve hres1] at hk1
          rw [statPair_of_resolve hres2] at hk2
          rw [← hk1] at hk2
          have : (d2.dev, d2.ino) = (d1.dev, d1.ino) := by injection hk2
          exact hfresh2 (this ▸ hmem1)

theorem walkF_inv (fs : FSNode) (fset : FilterSettings) (base dirPath : AbsPath)
    (localSpec : Option (String → Bool)) :
    ∀ (fuel : Nat) (root : AbsPath) (entries : List (String × FSNode)),
      resolveAt fs root = some (FSNode.dir entries) →
      ∀ (seen : List (Nat × Nat)),
      (∀ k, k ∈ seen → k ∈ (walkF fset base dirPath localSpec fuel root entries seen).2) ∧
      (∀ q ∈ (walkF fset base dirPath localSpec fuel root entries seen).1,
        ∃ d, resolveAt fs q = some (FSNode.file d) ∧ is_binary_file d = false ∧
          (d.dev, d.ino) ∉ seen ∧
          (d.dev, d.ino) ∈ (walkF fset base dirPath localSpec fuel root entries seen).2) ∧
      ((walkF fset base dirPath localSpec fuel root entries seen).1.map
        (statPair fs)).Nodup
  | 0, root, entries, _, seen => by
    refine ⟨fun k hk => hk, ?_, by simp [walkF]⟩
    intro q hq
    simp [walkF] at hq
  | fuel + 1, root, entries, hroot, seen => by
    cases hrb : relativeTo root base with
    | none =>
      constructor
      · intro k hk
        simpa only [walkF, hrb] using hk
      constructor
      · intro q hq
        simp only [walkF, hrb] at hq
        simp at hq
      · simp only [walkF, hrb]
        simp
    | some rrb =>
      cases hrc : relativeTo root dirPath with
      | none =>
        constructor
        · intro k hk
          simpa only [walkF, hrb, hrc] using hk
        constructor
        · intro q hq
          simp only [walkF, hrb, hrc] at hq
          simp at hq
        · simp only [walkF, hrb, hrc]
          simp
      | some rrc =>
        have pf := process_files_inv fs fset base localSpec root rrc entries hroot
          (sortIC ((entries.filter (fun e => ! entryIsDir e.2)).map (fun e => e.1))) seen
        rcases pf with ⟨pa, pb, pc⟩
        have wk := walkKids_inv fs
          (fun r e s => walkF fset base dirPath localSpec fuel r e s)
          (fun root' entries' seen' h' =>
            walkF_inv fs fset base dirPath localSpec fuel root' entries' h' seen')
          root entries hroot
          (sortIC ((entries.filter (fun e => entryIsDir e.2)).map (fun e => e.1))
            |>.filter (fun n => ! is_directory_ignored_by_name fset n rrb rrc localSpec))
          (process_files fset base localSpec root rrc entries
            (sortIC ((entries.filter (fun e => ! entryIsDir e.2)).map (fun e => e.1))) seen).2
        rcases wk with ⟨wa, wb, wc⟩
        have hstep : walkF fset base dirPath localSpec (fuel + 1) root entries seen =
            ((process_files fset base localSpec root rrc entries
                (sortIC ((entries.filter (fun e => ! entryIsDir e.2)).map (fun e => e.1))) seen).1 ++
              (walkKids (fun r e s => walkF fset base dirPath localSpec fuel r e s)
                root entries
                (sortIC ((entries.filter (fun e => entryIsDir e.2)).map (fun e => e.1))
                  |>.filter (fun n => ! is_directory_ignored_by_name fset n rrb rrc localSpec))
                (process_files fset base localSpec root rrc entries
                  (sortIC ((entries.filter (fun e => ! entryIsDir e.2)).map (fun e => e.1))) seen).2).1,
             (walkKids (fun r e s => walkF fset base dirPath localSpec fuel r e s)
                root entries
                (sortIC ((entries.filter (fun e => entryIsDir e.2)).map (fun e => e.1))
                  |>.filter (fun n => ! is_directory_ignored_by_name fset n rrb rrc localSpec))
                (process_files fset base localSpec root rrc entries
                  (sortIC ((entries.filter (fun e => ! entryIsDir e.2)).map (fun e => e.1))) seen).2).2) := by
          simp only [walkF, hrb, hrc]
        rw [hstep]
        refine ⟨?_, ?_, ?_⟩
        · intro k hk
          exact wa k (pa k hk)
        · intro q hq
          rcases List.mem_append.mp hq with hq1 | hq2
          · rcases pb q hq1 with ⟨d, hres, hbin, hfresh, hmem⟩
            exact ⟨d, hres, hbin, hfresh, wa _ hmem⟩
          · rcases wb q hq2 with ⟨d, hres, hbin, hfresh, hmem⟩
            exact ⟨d, hres, hbin, fun hk => hfresh (pa _ hk), hmem⟩
        · rw [List.map_append]
          refine List.nodup_append.mpr ⟨pc, wc, ?_⟩
          intro x hx1 hx2
          rcases List.mem_map.mp hx1 with ⟨q1, hq1, hk1⟩
          rcases List.mem_map.mp hx2 with ⟨q2, hq2, hk2⟩
          rcases pb q1 hq1 with ⟨d1, hres1, -, -, hmem1⟩
          rcases wb q2 hq2 with ⟨d2, hres2, -, hfresh2, -⟩
          rw [statPair_of_resolve hres1] at hk1
          rw [statPair_of_resolve hres2] at hk2
          rw [← hk1] at hk2
          have : (d2.dev, d2.ino) = (d1.dev, d1.ino) := by injection hk2
          exact hfresh2 (this ▸ hmem1)

theorem discover_loop_inv (compile : List String → String → Bool) (fs : FSNode)
    (cfg : WorkerConfig) :
    ∀ (paths : List AbsPath) (seen : List (Nat × Nat)),
      (∀ k, k ∈ seen → k ∈ (discover_loop compile fs cfg paths seen).2) ∧
      (∀ q ∈ (discover_loop compile fs cfg paths seen).1,
        ∃ d, resolveAt fs q = some (FSNode.file d) ∧ is_binary_file d = false ∧
          (d.dev, d.ino) ∉ seen ∧
          (d.dev, d.ino) ∈ (discover_loop compile fs cfg paths seen).2) ∧
      ((discover_loop compile fs cfg paths seen).1.map (statPair fs)).Nodup
  | [], seen => by
    refine ⟨fun k hk => hk, ?_, by simp [discover_loop]⟩
    intro q hq
    simp [discover_loop] at hq
  | p :: rest, seen => by
    cases hres : resolveAt fs p with
    | none =>
      have ih := discover_loop_inv compile fs cfg rest seen
      simpa only [discover_loop, hres] using ih
    | some node =>
      cases node with
      | special =>
        have ih := discover_loop_inv compile fs cfg rest seen
        simpa only [discover_loop, hres] using ih
      | file d =>
        by_cases hsi : should_include_file cfg.filter_settings
            cfg.generation_options.base_directory p (FSNode.file d) seen none none = true
        · rcases should_include_props hsi with ⟨d', hd, -, hbin, hfresh⟩
          have hdd : d = d' := by injection hd
          subst hdd
          rcases discover_loop_inv compile fs cfg rest (seen ++ [(d.dev, d.ino)])
            with ⟨ia, ib, ic⟩
          have hstep : discover_loop compile fs cfg (p :: rest) seen =
              (p :: (discover_loop compile fs cfg rest (seen ++ [(d.dev, d.ino)])).1,
               (discover_loop compile fs cfg rest (seen ++ [(d.dev, d.ino)])).2) := by
            simp only [discover_loop, hres, hsi, if_true]
          rw [hstep]
          refine ⟨?_, ?_, ?_⟩
          · intro k hk
            exact ia k (by simp [hk])
          · intro q hq
            rcases List.mem_cons.mp hq with hq1 | hq2
            · subst hq1
              exact ⟨d, hres, hbin, hfresh, ia (d.dev, d.ino) (by simp)⟩
            · rcases ib q hq2 with ⟨d2, hres2, hbin2, hfresh2, hmem2⟩
              exact ⟨d2, hres2, hbin2, fun hk => hfresh2 (by simp [hk]), hmem2⟩
          · rw [List.map_cons]
            refine List.nodup_cons.mpr ⟨?_, ic⟩
            rw [statPair_of_resolve hres]
            intro hmem
            rcases List.mem_map.mp hmem with ⟨q, hq, hkey⟩
            rcases ib q hq with ⟨d2, hres2, -, hfresh2, -⟩
            rw [statPair_of_resolve hres2] at hkey
            have : (d2.dev, d2.ino) = (d.dev, d.ino) := by injection hkey
            exact hfresh2 (by simp [this])
        · have hsi' : should_include_file cfg.filter_settings
              cfg.generation_options.base_directory p (FSNode.file d) seen none none
              = false := by simpa using hsi
          have ih := discover_loop_inv compile fs cfg rest seen
          simpa only [discover_loop, hres, hsi', Bool.false_eq_true, if_false] using ih
      | dir entries =>
        by_cases hig : is_directory_ignored cfg.filter_settings
            cfg.generation_options.base_directory p = true
        · have ih := discover_loop_inv compile fs cfg rest seen
          simpa only [discover_loop, hres, hig, if_true] using ih
        · have hig' : is_directory_ignored cfg.filter_settings
              cfg.generation_options.base_directory p = false := by simpa using hig
          have hw := walkF_inv fs cfg.filter_settings
            cfg.generation_options.base_directory p
            (load_ignore_patterns compile entries cfg.filter_settings.use_gitignore
              cfg.filter_settings.use_npmignore cfg.filter_settings.use_dockerignore)
            (depthE entries + 1) p entries hres seen
          rcases hw with ⟨wa, wb, wc⟩
          rcases discover_loop_inv compile fs cfg rest
            (discover_directory_recursive cfg.filter_settings
              cfg.generation_options.base_directory p
              (load_ignore_patterns compile entries cfg.filter_settings.use_gitignore
                cfg.filter_settings.use_npmignore cfg.filter_settings.use_dockerignore)
              entries seen).2 with ⟨ia, ib, ic⟩
          have hstep : discover_loop compile fs cfg (p :: rest) seen =
              ((discover_directory_recursive cfg.filter_settings
                  cfg.generation_options.base_directory p
                  (load_ignore_patterns compile entries cfg.filter_settings.use_gitignore
                    cfg.filter_settings.use_npmignore cfg.filter_settings.use_dockerignore)
                  entries seen).1 ++
                (discover_loop compile fs cfg rest
                  (discover_directory_recursive cfg.filter_settings
                    cfg.generation_options.base_directory p
                    (load_ignore_patterns compile entries cfg.filter_settings.use_gitignore
                      cfg.filter_settings.use_npmignore cfg.filter_settings.use_dockerignore)
                    entries seen).2).1,
               (discover_loop compile fs cfg rest
                  (discover_directory_recursive cfg.filter_settings
                    cfg.generation_options.base_directory p
                    (load_ignore_patterns compile entries cfg.filter_settings.use_gitignore
                      cfg.filter_settings.use_npmignore cfg.filter_settings.use_dockerignore)
                    entries seen).2).2) := by
            simp only [discover_loop, hres, hig', Bool.false_eq_true, if_false]
          rw [hstep]
          simp only [discover_directory_recursive] at *
          refine ⟨?_, ?_, ?_⟩
          · intro k hk
            exact ia k (wa k hk)
          · intro q hq
            rcases List.mem_append.mp hq with hq1 | hq2
            · rcases wb q hq1 with ⟨d2, hres2, hbin2, hfresh2, hmem2⟩
              exact ⟨d2, hres2, hbin2, hfresh2, ia _ hmem2⟩
            · rcases ib q hq2 with ⟨d2, hres2, hbin2, hfresh2, hmem2⟩
              exact ⟨d2, hres2, hbin2, fun hk => hfresh2 (wa _ hk), hmem2⟩
          · rw [List.map_append]
            refine List.nodup_append.mpr ⟨wc, ic, ?_⟩
            intro x hx1 hx2
            rcases List.mem_map.mp hx1 with ⟨q1, hq1, hk1⟩
            rcases List.mem_map.mp hx2 with ⟨q2, hq2, hk2⟩
            rcases wb q1 hq1 with ⟨d1, hres1, -, -, hmem1⟩
            rcases ib q2 hq2 with ⟨d2, hres2, -, hfresh2, -⟩
            rw [statPair_of_resolve hres1] at hk1
            rw [statPair_of_resolve hres2] at hk2
            rw [← hk1] at hk2
            have : (d2.dev, d2.ino) = (d1.dev, d1.ino) := by injection hk2
            exact hfresh2 (this ▸ hmem1)

/-- C6: within one invocation of `discover_files`, the stat identities
(device, inode) of the returned paths are pairwise distinct — the same
physical file is never listed twice, across overlapping selected roots or
within one subtree — because an accepted file's pair enters the seen set
immediately and candidates already seen are rejected. -/
theorem c6_duplicate_suppression (compile : List String → String → Bool)
    (fs : FSNode) (cfg : WorkerConfig) :
    ((discover_files compile fs cfg).1.map (statPair fs)).Nodup := by
  have h := discover_loop_inv compile fs cfg
    (stableSortBy (keyLE (fun p => pyLower (AbsPath.name p)))
      cfg.generation_options.selected_paths) []
  exact h.2.2

/-- C8: `is_binary_file` answers true exactly when reading raised or a NUL
byte occurs among the first 1024 bytes (the read returns the first
min(size, 1024) bytes); consequently a file whose first 1024 bytes hold a
NUL byte never appears in a `discover_files` result, whatever its
extension. -/
theorem c8_binary_detection :
    (∀ d : FileData,
      is_binary_file d = true ↔ (d.readError = true ∨ (0 : Nat) ∈ d.bytes.take 1024))
    ∧ (∀ (compile : List String → String → Bool) (fs : FSNode) (cfg : WorkerConfig)
        (p : AbsPath) (d : FileData),
        resolveAt fs p = some (FSNode.file d) → (0 : Nat) ∈ d.bytes.take 1024 →
        p ∉ (discover_files compile fs cfg).1) := by
  constructor
  · intro d
    simp only [is_binary_file]
    by_cases hr : d.readError = true
    · simp [hr]
    · have hr' : d.readError = false := by simpa using hr
      simp [hr', List.contains]
  · intro compile fs cfg p d hres hnul hmem
    have h := (discover_loop_inv compile fs cfg
      (stableSortBy (keyLE (fun q => pyLower (AbsPath.name q)))
        cfg.generation_options.selected_paths) []).2.1 p hmem
    rcases h with ⟨d', hres', hbin', -, -⟩
    rw [hres] at hres'
    have hdd : d' = d := by
      have := Option.some.inj hres'
      injection this.symm
    subst hdd
    have : is_binary_file d' = true := by
      simp only [is_binary_file]
      by_cases hr : d'.readError = true
      · simp [hr]
      · have hr' : d'.readError = false := by simpa using hr
        simp [hr', List.contains]
        exact hnul
    rw [this] at hbin'
    exact Bool.noConfusion hbin'

/-- C8 witness: in the binary-exclusion fixture, `/b/data.py` resolves to
a file with a NUL among its first bytes and is absent from the result. -/
theorem c8_binary_detection_witness :
    AbsPath.mk ["b", "data.py"] ∉ (discover_files literalCompile fsC8 cfgC8).1 :=
  c8_binary_detection.2 literalCompile fsC8 cfgC8 ⟨["b", "data.py"]⟩ (fdNul 41)
    rfl (by decide)

/-! The multi-encoding reader. -/

theorem readWithEncodings_eq_spec (d : FileData) :
    ∀ encodings : List String,
      readWithEncodings d encodings =
        (match encodings.find? (fun enc =>
            match d.decode enc with
            | DecodeResult.decodeError => false
            | _ => true) with
        | some enc =>
          match d.decode enc with
          | DecodeResult.ok content => if content.trim = "" then none else some content
          | _ => none
        | none => none)
  | [] => rfl
  | enc :: rest => by
    cases hdec : d.decode enc with
    | ok content =>
      simp [readWithEncodings, hdec, List.find?]
    | decodeError =>
      have ih := readWithEncodings_eq_spec d rest
      simp only [readWithEncodings, hdec, List.find?]
      simpa [hdec] using ih
    | osError =>
      simp [readWithEncodings, hdec, List.find?]

/-- C9: `FileReader.get_file_content` agrees everywhere with the
specification reading of §4.4 — binary files are absent; otherwise the
first encoding whose decode raises no `UnicodeDecodeError` decides the
outcome: a successful decode is returned unless empty or all-whitespace,
an OS-level error is absent at once (later encodings untried), and
exhausting the list is absent. -/
theorem c9_reader_first_encoding (encodings : List String) (d : FileData) :
    get_file_content encodings d = getFileContentSpec encodings d := by
  unfold get_file_content getFileContentSpec
  by_cases hb : is_binary_file d = true
  · simp [hb]
  · have hb' : is_binary_file d = false := by simpa using hb
    simp only [hb', Bool.false_eq_true, if_false]
    exact readWithEncodings_eq_spec d encodings

/-! The in-place sort of the selected paths. -/

/-- C10: `discover_files` leaves `config.generation_options.selected_paths`
holding a permutation of its pre-call value that is sorted by the
case-insensitive final-name key — the caller-supplied list is mutated by
the in-place sort, not left as passed. -/
theorem c10_selected_paths_mutated (compile : List String → String → Bool)
    (fs : FSNode) (cfg : WorkerConfig) :
    List.Perm (discover_files compile fs cfg).2.2
      cfg.generation_options.selected_paths ∧
    (discover_files compile fs cfg).2.2.Pairwise
      (fun p q => keyLE (fun x => pyLower (AbsPath.name x)) p q = true) := by
  constructor
  · exact perm_stableSortBy _ _
  · exact sorted_stableSortBy _ (keyLE_total _) (keyLE_trans _) _

/-! Permutation invariance of the walk (ordering determinism). -/

theorem find?_some_eq {α : Type} {p : α → Bool} {a : α} :
    ∀ {l : List α}, l.find? p = some a → p a = true
  | [], h => by simp [List.find?] at h
  | x :: xs, h => by
    by_cases hx : p x = true
    · rw [List.find?_cons_of_pos xs hx] at h
      have hxa : x = a := by injection h
      rw [← hxa]; exact hx
    · have hx2 : p x = false := by simpa using hx
      rw [List.find?_cons_of_neg xs (by simp [hx2])] at h
      exact find?_some_eq h

theorem lookupEntry_eq_of_perm {entries entries' : List (String × FSNode)}
    (hp : List.Perm entries' entries)
    (hnd : (entries.map (fun e => e.1)).Nodup) (n : String) :
    lookupEntry n entries' = lookupEntry n entries := by
  unfold lookupEntry
  cases hf : entries.find? (fun e => e.1 = n) with
  | none =>
    have hall := List.find?_eq_none.mp hf
    have : entries'.find? (fun e => e.1 = n) = none := by
      refine List.find?_eq_none.mpr ?_
      intro x hx
      exact hall x (hp.mem_iff.mp hx)
    rw [this]
  | some e =>
    have he : e ∈ entries := List.mem_of_find?_eq_some hf
    have hpe0 := find?_some_eq hf
    have hpe : e.1 = n := by simpa using hpe0
    have he' : e ∈ entries' := hp.mem_iff.mpr he
    have hsome : (entries'.find? (fun x => x.1 = n)).isSome := by
      rw [List.find?_isSome]
      exact ⟨e, he', by simp [hpe]⟩
    cases hf' : entries'.find? (fun x => x.1 = n) with
    | none => rw [hf'] at hsome; simp at hsome
    | some e' =>
      have he'mem : e' ∈ entries := hp.mem_iff.mp (List.mem_of_find?_eq_some hf')
      have hpe0' := find?_some_eq hf'
      have hpe' : e'.1 = n := by simpa using hpe0'
      have : e' = e := by
        refine List.inj_on_of_nodup_map hnd he'mem he ?_
        have h1 : e'.1 = n := by simpa using hpe'
        have h2 : e.1 = n := by simpa using hpe
        rw [h1, h2]
      rw [this]

theorem names_nodup_of_lower {entries : List (String × FSNode)}
    (hnd : (entries.map (fun e => pyLower e.1)).Nodup) :
    (entries.map (fun e => e.1)).Nodup := by
  have h : (entries.map (fun e => pyLower e.1)) =
      (entries.map (fun e => e.1)).map pyLower := by
    rw [List.map_map]; rfl
  rw [h] at hnd
  exact List.Nodup.of_map pyLower hnd

theorem filtered_names_lower_nodup {entries : List (String × FSNode)}
    (hnd : (entries.map (fun e => pyLower e.1)).Nodup) (P : String × FSNode → Bool) :
    (((entries.filter P).map (fun e => e.1)).map pyLower).Nodup := by
  have hsub : List.Sublist (entries.filter P) entries := List.filter_sublist entries
  have hsub2 : List.Sublist (((entries.filter P).map (fun e => e.1)).map pyLower)
      ((entries.map (fun e => e.1)).map pyLower) :=
    (hsub.map (fun e => e.1)).map pyLower
  refine List.Nodup.sublist hsub2 ?_
  have h : (entries.map (fun e => pyLower e.1)) =
      (entries.map (fun e => e.1)).map pyLower := by
    rw [List.map_map]; rfl
  rw [h] at hnd
  exact hnd

theorem sortIC_eq_of_perm {l l' : List String} (hp : List.Perm l' l)
    (hnd : (l.map pyLower).Nodup) : sortIC l' = sortIC l :=
  stableSortBy_eq_of_perm pyLower l l' hp hnd

theorem process_files_congr (fset : FilterSettings) (base : AbsPath)
    (localSpec : Option (String → Bool)) (root : AbsPath) (rrc : List String)
    {entries entries' : List (String × FSNode)}
    (hl : ∀ n, lookupEntry n entries' = lookupEntry n entries) :
    ∀ (names : List String) (seen : List (Nat × Nat)),
      process_files fset base localSpec root rrc entries' names seen =
        process_files fset base localSpec root rrc entries names seen
  | [], seen => rfl
  | n :: rest, seen => by
    have ih1 := process_files_congr fset base localSpec root rrc hl rest
    simp only [process_files, hl n]
    cases lookupEntry n entries with
    | none => exact ih1 seen
    | some node =>
      by_cases hsi : should_include_file fset base (root.child n) node seen
          localSpec (some rrc) = true
      · cases node with
        | file d => simp only [hsi, if_true]; rw [ih1]
        | dir es => simp only [hsi, if_true]; exact ih1 seen
        | special => simp only [hsi, if_true]; exact ih1 seen
      · have hsi' : should_include_file fset base (root.child n) node seen
            localSpec (some rrc) = false := by simpa using hsi
        simp only [hsi', Bool.false_eq_true, if_false]
        exact ih1 seen

theorem walkKids_congr
    (recur : AbsPath → List (String × FSNode) → List (Nat × Nat) →
      List AbsPath × List (Nat × Nat)) (root : AbsPath)
    {entries entries' : List (String × FSNode)}
    (hl : ∀ n, lookupEntry n entries' = lookupEntry n entries) :
    ∀ (names : List String) (seen : List (Nat × Nat)),
      walkKids recur root entries' names seen = walkKids recur root entries names seen
  | [], seen => rfl
  | n :: rest, seen => by
    have ih := walkKids_congr recur root hl rest
    simp only [walkKids, hl n]
    cases lookupEntry n entries with
    | none => exact ih seen
    | some node =>
      cases node with
      | file d => exact ih seen
      | special => exact ih seen
      | dir es =>
        dsimp only
        rw [ih]

theorem walkF_perm (fset : FilterSettings) (base dirPath : AbsPath)
    (localSpec : Option (String → Bool)) (fuel : Nat) (root : AbsPath)
    {entries entries' : List (String × FSNode)}
    (hp : List.Perm entries' entries)
    (hnd : (entries.map (fun e => pyLower e.1)).Nodup)
    (seen : List (Nat × Nat)) :
    walkF fset base dirPath localSpec fuel root entries' seen =
      walkF fset base dirPath localSpec fuel root entries seen := by
  cases fuel with
  | zero => rfl
  | succ fuel =>
    have hndplain := names_nodup_of_lower hnd
    have hlook := fun n => lookupEntry_eq_of_perm hp hndplain n
    have hdirs : sortIC ((entries'.filter (fun e => entryIsDir e.2)).map (fun e => e.1)) =
        sortIC ((entries.filter (fun e => entryIsDir e.2)).map (fun e => e.1)) := by
      refine sortIC_eq_of_perm ?_ ?_
      · exact (hp.filter _).map _
      · exact filtered_names_lower_nodup hnd _
    have hfiles : sortIC ((entries'.filter (fun e => ! entryIsDir e.2)).map (fun e => e.1)) =
        sortIC ((entries.filter (fun e => ! entryIsDir e.2)).map (fun e => e.1)) := by
      refine sortIC_eq_of_perm ?_ ?_
      · exact (hp.filter _).map _
      · exact filtered_names_lower_nodup hnd _
    cases hrb : relativeTo root base with
    | none => simp only [walkF, hrb]
    | some rrb =>
      cases hrc : relativeTo root dirPath with
      | none => simp only [walkF, hrb, hrc]
      | some rrc =>
        simp only [walkF, hrb, hrc, hdirs, hfiles]
        rw [process_files_congr fset base localSpec root rrc hlook,
          walkKids_congr _ root hlook]

theorem discover_loop_congr (compile : List String → String → Bool) (fs : FSNode)
    {cfg cfg' : WorkerConfig}
    (hf : cfg'.filter_settings = cfg.filter_settings)
    (hb : cfg'.generation_options.base_directory =
      cfg.generation_options.base_directory) :
    ∀ (paths : List AbsPath) (seen : List (Nat × Nat)),
      discover_loop compile fs cfg' paths seen = discover_loop compile fs cfg paths seen
  | [], seen => rfl
  | p :: rest, seen => by
    have ih := discover_loop_congr compile fs hf hb rest
    simp only [discover_loop, hf, hb]
    cases resolveAt fs p with
    | none => exact ih seen
    | some node =>
      cases node with
      | special => exact ih seen
      | file d =>
        by_cases hsi : should_include_file cfg.filter_settings
            cfg.generation_options.base_directory p (FSNode.file d) seen none none = true
        · simp only [hsi, if_true]; rw [ih]
        · have hsi' : should_include_file cfg.filter_settings
              cfg.generation_options.base_directory p (FSNode.file d) seen none none
              = false := by simpa using hsi
          simp only [hsi', Bool.false_eq_true, if_false]
          exact ih seen
      | dir entries =>
        by_cases hig : is_directory_ignored cfg.filter_settings
            cfg.generation_options.base_directory p = true
        · simp only [hig, if_true]; exact ih seen
        · have hig' : is_directory_ignored cfg.filter_settings
              cfg.generation_options.base_directory p = false := by simpa using hig
          simp only [hig', Bool.false_eq_true, if_false]
          rw [ih]

/-- C7: the discovered list is determined by the multiset of selected
paths and, at each directory level, by the multiset of listed entries —
first, two configurations agreeing on filters and base directory whose
selected path lists are permutations of one another (with pairwise
distinct lower-cased final names) discover the same list, because the
walker first sorts the selected paths case-insensitively; second, one
`os.walk` level is invariant under permuting the directory listing (with
pairwise distinct lower-cased names), because subdirectory and file names
are each sorted case-insensitively before files are emitted and
subdirectories descended. -/
theorem c7_ordering_determinism :
    (∀ (compile : List String → String → Bool) (fs : FSNode)
        (cfg cfg' : WorkerConfig),
      cfg'.filter_settings = cfg.filter_settings →
      cfg'.generation_options.base_directory =
        cfg.generation_options.base_directory →
      List.Perm cfg'.generation_options.selected_paths
        cfg.generation_options.selected_paths →
      ((cfg.generation_options.selected_paths.map
        (fun p => pyLower (AbsPath.name p))).Nodup) →
      (discover_files compile fs cfg').1 = (discover_files compile fs cfg).1)
    ∧ (∀ (fset : FilterSettings) (base dirPath : AbsPath)
        (localSpec : Option (String → Bool)) (fuel : Nat) (root : AbsPath)
        (entries entries' : List (String × FSNode)),
      List.Perm entries' entries →
      ((entries.map (fun e => pyLower e.1)).Nodup) →
      ∀ seen, walkF fset base dirPath localSpec fuel root entries' seen =
        walkF fset base dirPath localSpec fuel root entries seen) := by
  constructor
  · intro compile fs cfg cfg' hf hb hperm hnd
    have hsort : stableSortBy (keyLE (fun p => pyLower (AbsPath.name p)))
        cfg'.generation_options.selected_paths =
        stableSortBy (keyLE (fun p => pyLower (AbsPath.name p)))
        cfg.generation_options.selected_paths :=
      stableSortBy_eq_of_perm (fun p => pyLower (AbsPath.name p)) _ _ hperm hnd
    simp only [discover_files, hsort]
    rw [discover_loop_congr compile fs hf hb]
  · intro fset base dirPath localSpec fuel root entries entries' hp hnd seen
    exact walkF_perm fset base dirPath localSpec fuel root hp hnd seen

/-- C7 witness: selecting `[b, a]` discovers the same list as selecting
`[a, b]` over the two-directory fixture. -/
theorem c7_ordering_determinism_witness :
    (discover_files literalCompile fsW7 cfgW7b).1 =
      (discover_files literalCompile fsW7 cfgW7a).1 :=
  c7_ordering_determinism.1 literalCompile fsW7 cfgW7a cfgW7b rfl rfl
    (List.Perm.swap _ _ _) (by decide)

/-! Independence of the walk from ignore-file contents: the recursive
descent never reads the lines of any file it passes, so nested ignore
files cannot influence matching. -/

theorem mapLinesEntries_lookup (g : List String → List String) :
    ∀ (entries : List (String × FSNode)) (n : String),
      lookupEntry n (mapLinesEntries g entries) =
        (lookupEntry n entries).map (mapLinesNode g)
  | [], n => rfl
  | e :: rest, n => by
    by_cases hn : e.1 = n
    · simp [lookupEntry, mapLinesEntries, List.find?, hn]
    · simp only [lookupEntry, mapLinesEntries, List.find?] at *
      have h1 : (decide (e.1 = n)) = false := by simp [hn]
      simp only [h1]
      exact mapLinesEntries_lookup g rest n

theorem entryIsDir_mapLines (g : List String → List String) (node : FSNode) :
    entryIsDir (mapLinesNode g node) = entryIsDir node := by
  cases node <;> rfl

theorem mapLinesEntries_names (g : List String → List String) :
    ∀ (entries : List (String × FSNode)) (P : FSNode → Bool),
      (∀ node, P (mapLinesNode g node) = P node) →
      ((mapLinesEntries g entries).filter (fun e => P e.2)).map (fun e => e.1) =
        (entries.filter (fun e => P e.2)).map (fun e => e.1)
  | [], P, hP => rfl
  | e :: rest, P, hP => by
    simp only [mapLinesEntries, List.filter]
    rw [hP e.2]
    cases hPe : P e.2 with
    | true => simp [mapLinesEntries_names g rest P hP]
    | false => simp [mapLinesEntries_names g rest P hP]

theorem should_include_mapLines (g : List String → List String)
    (fset : FilterSettings) (base filePath : AbsPath) (node : FSNode)
    (seen : List (Nat × Nat)) (localSpec : Option (String → Bool))
    (rrcOpt : Option (List String)) :
    should_include_file fset base filePath (mapLinesNode g node) seen localSpec rrcOpt =
      should_include_file fset base filePath node seen localSpec rrcOpt := by
  cases node <;> rfl

theorem process_files_mapLines (g : List String → List String)
    (fset : FilterSettings) (base : AbsPath) (localSpec : Option (String → Bool))
    (root : AbsPath) (rrc : List String) (entries : List (String × FSNode)) :
    ∀ (names : List String) (seen : List (Nat × Nat)),
      process_files fset base localSpec root rrc (mapLinesEntries g entries) names seen =
        process_files fset base localSpec root rrc entries names seen
  | [], seen => rfl
  | n :: rest, seen => by
    have ih := process_files_mapLines g fset base localSpec root rrc entries rest
    simp only [process_files, mapLinesEntries_lookup g entries n]
    cases lookupEntry n entries with
    | none => exact ih seen
    | some node =>
      simp only [Option.map_some']
      rw [should_include_mapLines]
      by_cases hsi : should_include_file fset base (root.child n) node seen
          localSpec (some rrc) = true
      · cases node with
        | file d =>
          simp only [hsi, if_true, mapLinesNode, mapLinesData]
          rw [ih]
        | dir es =>
          simp only [hsi, if_true, mapLinesNode]
          exact ih seen
        | special =>
          simp only [hsi, if_true, mapLinesNode]
          exact ih seen
      · have hsi' : should_include_file fset base (root.child n) node seen
            localSpec (some rrc) = false := by simpa using hsi
        simp only [hsi', Bool.false_eq_true, if_false]
        exact ih seen

theorem walkKids_mapLines (g : List String → List String)
    (recur : AbsPath → List (String × FSNode) → List (Nat × Nat) →
      List AbsPath × List (Nat × Nat))
    (hrec : ∀ root' entries' seen',
      recur root' (mapLinesEntries g entries') seen' = recur root' entries' seen')
    (root : AbsPath) (entries : List (String × FSNode)) :
    ∀ (names : List String) (seen : List (Nat × Nat)),
      walkKids recur root (mapLinesEntries g entries) names seen =
        walkKids recur root entries names seen
  | [], seen => rfl
  | n :: rest, seen => by
    have ih := walkKids_mapLines g recur hrec root entries rest
    simp only [walkKids, mapLinesEntries_lookup g entries n]
    cases lookupEntry n entries with
    | none => exact ih seen
    | some node =>
      cases node with
      | file d => exact ih seen
      | special => exact ih seen
      | dir es =>
        simp only [Option.map_some', mapLinesNode]
        rw [hrec (root.child n) es seen, ih]

theorem walkF_mapLines (g : List String → List String) (fset : FilterSettings)
    (base dirPath : AbsPath) (localSpec : Option (String → Bool)) :
    ∀ (fuel : Nat) (root : AbsPath) (entries : List (String × FSNode))
      (seen : List (Nat × Nat)),
      walkF fset base dirPath localSpec fuel root (mapLinesEntries g entries) seen =
        walkF fset base dirPath localSpec fuel root entries seen
  | 0, root, entries, seen => rfl
  | fuel + 1, root, entries, seen => by
    have hdirs : ((mapLinesEntries g entries).filter
        (fun e => entryIsDir e.2)).map (fun e => e.1) =
        (entries.filter (fun e => entryIsDir e.2)).map (fun e => e.1) :=
      mapLinesEntries_names g entries entryIsDir (entryIsDir_mapLines g)
    have hfiles : ((mapLinesEntries g entries).filter
        (fun e => ! entryIsDir e.2)).map (fun e => e.1) =
        (entries.filter (fun e => ! entryIsDir e.2)).map (fun e => e.1) :=
      mapLinesEntries_names g entries (fun node => ! entryIsDir node)
        (fun node => by simp [entryIsDir_mapLines])
    cases hrb : relativeTo root base with
    | none => simp only [walkF, hrb]
    | some rrb =>
      cases hrc : relativeTo root dirPath with
      | none => simp only [walkF, hrb, hrc]
      | some rrc =>
        simp only [walkF, hrb, hrc, hdirs, hfiles]
        rw [process_files_mapLines g fset base localSpec root rrc entries,
          walkKids_mapLines g _ (fun root' entries' seen' =>
            walkF_mapLines g fset base dirPath localSpec fuel root' entries' seen')
            root entries]

/-- C2 counterexample: with `/b` selected (base `/b`), the nested
`.gitignore` in `/b/sub` lists `secret.py` — and the compiled local spec
would match that file's path relative to its own directory — yet
`/b/sub/secret.py` is discovered: the walker never loads ignore files from
directories it descends into, so the nested ignore file does not affect
matching. -/
theorem c2_nested_ignore_counterexample :
    readIgnoreFileLines subEntriesC2 ".gitignore" = ["secret.py"] ∧
    literalCompile ["secret.py"] "secret.py" = true ∧
    AbsPath.mk ["b", "sub", "secret.py"] ∈ (discover_files literalCompile fsC2 cfgC2).1 := by
  refine ⟨rfl, rfl, ?_⟩
  decide

/-- C2 (amended): during one walk, the local ignore spec in force is
exclusively the one loaded at the selected top-level directory before
descent; the recursive walk never reads ignore-file contents, so replacing
the text lines of every file in the walked listing (in particular of any
nested `.gitignore`, `.npmignore` or `.dockerignore`) leaves the walk
output unchanged — only the project spec, the global spec and the spec
passed in from the selected directory apply. -/
theorem c2_local_spec_loaded_once (g : List String → List String)
    (fset : FilterSettings) (base dirPath : AbsPath)
    (localSpec : Option (String → Bool)) (fuel : Nat) (root : AbsPath)
    (entries : List (String × FSNode)) (seen : List (Nat × Nat)) :
    walkF fset base dirPath localSpec fuel root (mapLinesEntries g entries) seen =
      walkF fset base dirPath localSpec fuel root entries seen :=
  walkF_mapLines g fset base dirPath localSpec fuel root entries seen

/-- C3: failing input for the local-spec anchor — the selected directory
`/b/sel` (base `/b`) has a `.gitignore` with the anchored pattern
`x/deny.py`, the compiled spec matches the path of `/b/sel/x/deny.py`
relative to the spec's own directory, yet the file is discovered: in
`_should_include_file` the tested path is relative to
`base / root_relative_to_current` (here `/b/x`), whose computation raises
and silently skips the local check, instead of being relative to the
spec's anchor directory. -/
theorem c3_local_anchor_failing_input :
    (discover_files literalCompile fsC3 cfgC3).1 =
      [AbsPath.mk ["b", "sel", "x", "deny.py"]] ∧
    readIgnoreFileLines selEntriesC3 ".gitignore" = ["x/deny.py"] ∧
    literalCompile ["x/deny.py"] (relStr ["x", "deny.py"]) = true := by
  refine ⟨?_, rfl, rfl⟩
  decide

/-- C4 counterexample: with every ignore-file toggle disabled (gitignore
handling off), `load_ignore_patterns` still collects the `.git/info/exclude`
pattern lines and returns a compiled spec, where the claim requires no
contribution. -/
theorem c4_git_info_exclude_counterexample :
    collect_ignore_lines entriesC4 false false false = ["secret.txt"] ∧
    (load_ignore_patterns literalCompile entriesC4 false false false).isSome = true := by
  exact ⟨rfl, rfl⟩

/-- C4 (amended): the `.git/info/exclude` lines of a directory are a
suffix of the collected pattern lines whatever the three ignore-file
toggles are — their contribution depends only on a `.git` directory with a
readable regular `info/exclude` file being present — and with all toggles
disabled the collected lines are exactly the `.git/info/exclude` lines. -/
theorem c4_git_info_exclude_unconditional
    (entries : List (String × FSNode)) (ug un ud : Bool) :
    (∃ pre, pre ++ gitInfoExcludeLines entries = collect_ignore_lines entries ug un ud)
    ∧ collect_ignore_lines entries false false false = gitInfoExcludeLines entries := by
  constructor
  · refine ⟨(if ug then readIgnoreFileLines entries ".gitignore" else []) ++
      (if un then readIgnoreFileLines entries ".npmignore" else []) ++
      (if ud then readIgnoreFileLines entries ".dockerignore" else []), ?_⟩
    simp [collect_ignore_lines, List.append_assoc]
  · simp [collect_ignore_lines]

end Stitcher
